import Mathlib

/-
  Verification of the work-efficient scan / stream-compaction implementation
  in src/stream_compaction/efficient.cu.

  Device buffers are modelled as total functions from cell index to integer
  value; the cells at and beyond the allocated size are never read by the
  modelled code paths, and freshly allocated (uninitialized) memory is an
  explicit parameter of each entry point.  Machine int arithmetic is modelled
  by unbounded integers: the repository documentation places overflow outside
  the contract, and all index arithmetic stays far below the 32-bit range for
  the sizes the kernels are launched with.
-/

/-- Sum of the buffer cells with index in the half-open range a..b. -/
def segSum (a b : ℕ) (x : ℕ → ℤ) : ℤ := ∑ t in Finset.Ico a b, x t

/-- Overwrite one cell of a buffer. -/
def setCell (i : ℕ) (v : ℤ) (data : ℕ → ℤ) : ℕ → ℤ :=
  fun j => if j = i then v else data j

/-- cudaMemcpy of the first k cells of src over dst (used both for the
host-to-device input copy of n ints and the device-to-device copy of the
mask buffer over P ints). -/
def copyFirst (k : ℕ) (src dst : ℕ → ℤ) : ℕ → ℤ :=
  fun j => if j < k then src j else dst j

/-- cudaMemset of zero bytes over the cell range a..b (half-open), as in
cudaMemset(data + n, 0, (P - n) * sizeof(int)). -/
def memsetZero (a b : ℕ) (dst : ℕ → ℤ) : ℕ → ℤ :=
  fun j => if a ≤ j ∧ j < b then 0 else dst j

/-- Fuel-driven search for the least k (starting from the accumulator) with
n treated as ilog2ceil input: stops at the first exponent k with n below 2^k. -/
def i2cGo (n : ℕ) : ℕ → ℕ → ℕ
  | 0, k => k
  | f + 1, k => if n ≤ 2 ^ k then k else i2cGo n f (k + 1)

/-- Modelled from the spec: ilog2ceil lives in common.h, which is not part of
src/.  Section 9 of the spec fixes P = max(1, next_pow2(n)), the smallest
power of two at or above n, so ilog2ceil n is the least k with n at most 2^k. -/
def ilog2ceil (n : ℕ) : ℕ := i2cGo n n 0

/-- smallestPOTGreater, computed as 1 << ilog2ceil(n) in scan and compact. -/
def potOf (n : ℕ) : ℕ := 2 ^ ilog2ceil n

/-- One upsweep kernel launch at tree level d (efficient.cu lines 18-25).
A thread writes cell rightIdx = base + 2^(d+1) - 1 unless the guard
rightIdx > bound makes it return; scan and compact both pass the logical
size n as the bound.  The launched grids cover every node index, so the
model updates every cell of right-node shape that passes the guard. -/
def kernUpsweep (d bound : ℕ) (data : ℕ → ℤ) : ℕ → ℤ :=
  fun j =>
    if (j + 1) % 2 ^ (d + 1) = 0 ∧ j ≤ bound then data j + data (j - 2 ^ d)
    else data j

/-- One downsweep kernel launch at tree level d (efficient.cu lines 27-38):
tmp = data[left]; data[left] = data[right]; data[right] += tmp, guarded by
rightIdx > bound; the call sites pass the padded size P as the bound. -/
def kernDownsweep (d bound : ℕ) (data : ℕ → ℤ) : ℕ → ℤ :=
  fun j =>
    if (j + 1) % 2 ^ (d + 1) = 0 ∧ j ≤ bound then data j + data (j - 2 ^ d)
    else if (j + 2 ^ d + 1) % 2 ^ (d + 1) = 0 ∧ j + 2 ^ d ≤ bound then
      data (j + 2 ^ d)
    else data j

/-- The upsweep loop: levels 0, 1, ..., levels-1 in ascending order. -/
def upsweepRun (levels bound : ℕ) (data : ℕ → ℤ) : ℕ → ℤ :=
  match levels with
  | 0 => data
  | d + 1 => kernUpsweep d bound (upsweepRun d bound data)

/-- The downsweep loop: levels levels-1, ..., 1, 0 in descending order. -/
def downsweepRun (levels bound : ℕ) (data : ℕ → ℤ) : ℕ → ℤ :=
  match levels with
  | 0 => data
  | d + 1 => downsweepRun d bound (kernDownsweep d bound data)

/-- The device part of scan (efficient.cu lines 54-64): D upsweep levels
bounded by the logical size n, the root zeroed at cell 2^D - 1, then D
downsweep levels bounded by the padded size 2^D. -/
def scanDev (D n : ℕ) (data : ℕ → ℤ) : ℕ → ℤ :=
  downsweepRun D (2 ^ D) (setCell (2 ^ D - 1) 0 (upsweepRun D n data))

/-- The full scan entry point (efficient.cu lines 43-69): allocate (g is the
uninitialized content of the fresh device buffer), copy the n inputs in,
zero the padding up to P, run the device phases, copy the first n cells out. -/
def scanFull (n : ℕ) (x g : ℕ → ℤ) : List ℤ :=
  (List.range n).map
    (scanDev (ilog2ceil (potOf n)) n (memsetZero n (potOf n) (copyFirst n x g)))

/-- Modelled from the spec: kernMapToBoolean lives in common.cu, which is not
part of src/.  Section 6 of the spec: mask i is 1 when input i is nonzero,
else 0, over the first bound cells; compact launches it over P cells. -/
def kernMapToBoolean (bound : ℕ) (idata g : ℕ → ℤ) : ℕ → ℤ :=
  fun j => if j < bound then (if idata j = 0 then 0 else 1) else g j

/-- Modelled from the spec: kernScatter lives in common.cu, which is not part
of src/.  Section 6 of the spec: for each i with mask i equal to 1, write
input i to cell index i of the output.  Lanes are modelled in ascending
index order; this order is only observable on lanes fed by uninitialized
mask cells. -/
def scatterRun (bools idata idxs : ℕ → ℤ) : ℕ → (ℕ → ℤ) → ℕ → ℤ
  | 0, odata => odata
  | i + 1, odata =>
    let o := scatterRun bools idata idxs i odata
    if bools i = 1 then setCell (idxs i).toNat (idata i) o else o

/-- The index array compact builds (efficient.cu lines 95-114): map the
padded input to booleans, copy that buffer, re-zero the cells from n to P,
then run exactly the scan device phases (upsweep bounded by n, downsweep
bounded by P).  gI, gB, gI2 are the uninitialized contents of the three
fresh device buffers involved. -/
def compactIdx (n : ℕ) (x gI gB gI2 : ℕ → ℤ) : ℕ → ℤ :=
  scanDev (ilog2ceil (potOf n)) n
    (memsetZero n (potOf n)
      (copyFirst (potOf n) (kernMapToBoolean (potOf n) (copyFirst n x gI) gB) gI2))

/-- The compact entry point (efficient.cu lines 80-129).  Returns the first n
cells of the output buffer together with the returned count, which the code
copies from cell P-1 of the index array alone (line 122).  gI, gB, gI2, gO
are the uninitialized contents of dev_idata, bool_data, indices_data and
dev_odata. -/
def compactModel (n : ℕ) (x gI gB gI2 gO : ℕ → ℤ) : List ℤ × ℤ :=
  ((List.range n).map
      (scatterRun (kernMapToBoolean (potOf n) (copyFirst n x gI) gB)
        (copyFirst n x gI) (compactIdx n x gI gB gI2) (potOf n) gO),
    compactIdx n x gI gB gI2 (potOf n - 1))

/-- The 0/1 mask of an input sequence, used to state counting claims. -/
def maskOf (x : ℕ → ℤ) : ℕ → ℤ := fun t => if x t = 0 then 0 else 1

/-- Number of nonzero entries among the first n inputs. -/
def nonzeroCount (n : ℕ) (x : ℕ → ℤ) : ℤ := segSum 0 n (maskOf x)

/-- Kinds of host-side operations, used to state what the entry points do
before any computation: the source contains no validity check on n. -/
inductive HostStep where
  | allocBuf
  | hostToDevCopy
  | devMemset
  | launch
  | reject
deriving DecidableEq

/-- The host operations scan performs unconditionally at entry
(efficient.cu lines 44-48): cudaMalloc, cudaMemcpy, cudaMemset.  There is no
branch on n anywhere in the function, hence no reject step for any n,
negative values included. -/
def scanHostSteps (n : ℤ) : List HostStep :=
  [HostStep.allocBuf, HostStep.hostToDevCopy, HostStep.devMemset]

/-- The host operations compact performs unconditionally at entry
(efficient.cu lines 87-91): four cudaMalloc calls then cudaMemcpy, with no
branch on n before or between them. -/
def compactHostSteps (n : ℤ) : List HostStep :=
  [HostStep.allocBuf, HostStep.allocBuf, HostStep.allocBuf, HostStep.allocBuf,
    HostStep.hostToDevCopy]

/-- The cell holding, after the upsweep, the partial sum that downsweep level
e adds into the right half of the pair: the left-node cell of j at level e. -/
def aCell (e j : ℕ) : ℕ := j - j % 2 ^ (e + 1) + 2 ^ e - 1


-- The error bookkeeping for the mixed boundary checks: the upsweep guard
-- compares against the logical size n, so every right-node cell strictly
-- beyond n keeps its initial (zero-padded) value instead of its subtree sum.
-- errTerm measures, for one downsweep level e on the root path of cell j,
-- the subtree sum such a skipped cell failed to accumulate.

/-- The contribution missing at cell j from downsweep level e whenever the
upsweep guard (bound n) skipped the left-sibling cell on the root path. -/
def errTerm (n e j : ℕ) (x : ℕ → ℤ) : ℤ :=
  if 2 ^ e ≤ j % 2 ^ (e + 1) ∧ n < aCell e j then
    segSum (aCell e j + 1 - 2 ^ e) (aCell e j + 1) x
  else 0

/-- Total missing contribution at cell j over downsweep levels d..D-1. -/
def errSum (D n d j : ℕ) (x : ℕ → ℤ) : ℤ :=
  ∑ e in Finset.Ico d D, errTerm n e j x

/-- Closed form of a cell after the upsweep phase with guard bound n: cells
up to n hold the sum of their aligned block (whose length is the largest
power of two dividing the successor index, capped at the number of levels
run), cells strictly beyond n are never written. -/
def uVal (d n : ℕ) (x : ℕ → ℤ) (j : ℕ) : ℤ :=
  if j ≤ n then segSum (j + 1 - Nat.gcd (2 ^ d) (j + 1)) (j + 1) x else x j

/-- The downsweep invariant just before levels d-1, ..., 0 run: every cell
that ends a block of length 2^d holds the (error-adjusted) sum of all cells
strictly before its block, and every other cell still holds its upsweep
value.  The error term records the subtree sums lost to the upsweep guard
that compares against n instead of the padded size. -/
def DInv (D n : ℕ) (x : ℕ → ℤ) (d : ℕ) (data : ℕ → ℤ) : Prop :=
  ∀ j, j < 2 ^ D →
    ((j + 1) % 2 ^ d = 0 →
      data j = segSum 0 (j + 1 - 2 ^ d) x - errSum D n d j x) ∧
    ((j + 1) % 2 ^ d ≠ 0 → data j = uVal D n x j)


/-- Zero-extension of the first n inputs to the whole buffer: the padded
contents the scan works on for any choice of padded size. -/
def zeroPad (n : ℕ) (x : ℕ → ℤ) : ℕ → ℤ := fun j => if j < n then x j else 0

-- Concrete inputs used by witness and counterexample evaluations.

/-- Freshly allocated memory that happens to contain zeros. -/
def zeroGarbage : ℕ → ℤ := fun _ => 0

/-- Freshly allocated memory that happens to contain sevens. -/
def sevenGarbage : ℕ → ℤ := fun _ => 7

/-- The sequence 1, 0, 2, 0, 3 of the spec scenario. -/
def sampleMixed : ℕ → ℤ :=
  fun i => if i = 0 then 1 else if i = 2 then 2 else if i = 4 then 3 else 0

/-- The all-nonzero sequence 1, 2, 3, ... -/
def sampleAllNonzero : ℕ → ℤ := fun i => (i : ℤ) + 1

/-- The constant sequence 5, 5, ... (its prefix of length one is the spec
scenario input). -/
def sampleFive : ℕ → ℤ := fun _ => 5

/-- The sequence 5, 0, 0, ... -/
def sampleWithZero : ℕ → ℤ := fun i => if i = 0 then 5 else 0

/-- The sequence 3, 4, 0, 0, ... -/
def samplePair : ℕ → ℤ := fun i => if i = 0 then 3 else if i = 1 then 4 else 0

-- Basic facts about ilog2ceil.

lemma i2cGo_le (n : ℕ) : ∀ f k, n ≤ 2 ^ (k + f) → n ≤ 2 ^ i2cGo n f k := by
  intro f
  induction f with
  | zero => intro k h; simpa [i2cGo] using h
  | succ f ih =>
    intro k h
    by_cases hk : n ≤ 2 ^ k
    · simpa [i2cGo, hk] using hk
    · have := ih (k + 1) (by
        have : k + 1 + f = k + (f + 1) := by omega
        simpa [this] using h)
      simpa [i2cGo, hk] using this

lemma le_potOf (n : ℕ) : n ≤ potOf n := by
  have h := i2cGo_le n n 0 (by simpa using (Nat.lt_two_pow n).le)
  simpa [potOf, ilog2ceil] using h

lemma i2cGo_pow (k : ℕ) : ∀ f j, j ≤ k → k ≤ f + j → i2cGo (2 ^ k) f j = k := by
  intro f
  induction f with
  | zero => intro j h1 h2; simp [i2cGo]; omega
  | succ f ih =>
    intro j h1 h2
    by_cases hj : (2 : ℕ) ^ k ≤ 2 ^ j
    · have hkj : k ≤ j := (Nat.pow_le_pow_iff_right (by norm_num)).1 hj
      have : j = k := le_antisymm h1 hkj
      simp [i2cGo, hj, this]
    · have hjk : ¬ k ≤ j := fun h => hj (Nat.pow_le_pow_right (by norm_num) h)
      have : i2cGo (2 ^ k) f (j + 1) = k := ih (j + 1) (by omega) (by omega)
      simp [i2cGo, hj, this]

lemma ilog2ceil_potOf (n : ℕ) : ilog2ceil (potOf n) = ilog2ceil n := by
  have hk : ilog2ceil n < 2 ^ ilog2ceil n := Nat.lt_two_pow _
  have := i2cGo_pow (ilog2ceil n) (2 ^ ilog2ceil n) 0 (Nat.zero_le _) (by omega)
  simpa [potOf, ilog2ceil] using this

lemma n_le_pow_ilog2ceil_potOf (n : ℕ) : n ≤ 2 ^ ilog2ceil (potOf n) := by
  rw [ilog2ceil_potOf]; exact le_potOf n

-- Arithmetic helpers about powers of two, gcd and mod.

lemma two_pow_pos (d : ℕ) : 0 < 2 ^ d := Nat.pos_pow_of_pos d (by norm_num)

lemma gcd_pow2_of_dvd (d D m : ℕ) (h : 2 ^ d ∣ m) (h2 : ¬ 2 ^ (d + 1) ∣ m)
    (hdD : d ≤ D) : Nat.gcd (2 ^ D) m = 2 ^ d := by
  have hg : Nat.gcd (2 ^ D) m ∣ 2 ^ D := Nat.gcd_dvd_left _ _
  obtain ⟨i, hiD, hi⟩ := (Nat.dvd_prime_pow Nat.prime_two).1 hg
  have hle : 2 ^ d ∣ Nat.gcd (2 ^ D) m :=
    Nat.dvd_gcd (pow_dvd_pow 2 hdD) h
  rw [hi] at hle
  have hdi : d ≤ i := (Nat.pow_dvd_pow_iff_le_right (by norm_num)).1 hle
  have hid : i ≤ d := by
    by_contra hcon
    have : 2 ^ (d + 1) ∣ 2 ^ i := pow_dvd_pow 2 (by omega)
    exact h2 (this.trans (hi ▸ Nat.gcd_dvd_right (2 ^ D) m))
  rw [hi, le_antisymm hid hdi]

lemma gcd_pow2_succ_of_not_dvd (d m : ℕ) (h : ¬ 2 ^ (d + 1) ∣ m) :
    Nat.gcd (2 ^ (d + 1)) m = Nat.gcd (2 ^ d) m := by
  apply Nat.dvd_antisymm
  · have hg : Nat.gcd (2 ^ (d + 1)) m ∣ 2 ^ (d + 1) := Nat.gcd_dvd_left _ _
    obtain ⟨i, hiD, hi⟩ := (Nat.dvd_prime_pow Nat.prime_two).1 hg
    have hid : i ≤ d := by
      by_contra hcon
      have hieq : i = d + 1 := by omega
      rw [hieq] at hi
      exact h (hi ▸ Nat.gcd_dvd_right (2 ^ (d + 1)) m)
    exact Nat.dvd_gcd (hi ▸ pow_dvd_pow 2 hid) (Nat.gcd_dvd_right _ _)
  · exact Nat.dvd_gcd ((Nat.gcd_dvd_left _ _).trans (pow_dvd_pow 2 (by omega)))
      (Nat.gcd_dvd_right _ _)

lemma mod_eq_sub_one_of_dvd (M j : ℕ) (hM : 0 < M) (h : M ∣ j + 1) :
    j % M = M - 1 := by
  obtain ⟨m, hm⟩ := h
  rcases m with _ | m
  · omega
  · have hj : j = M * m + (M - 1) := by
      have : M * (m + 1) = M * m + M := by ring
      omega
    rw [hj, Nat.mul_add_mod]
    exact Nat.mod_eq_of_lt (by omega)

-- Facts about a cell j of left-node shape at level d: the guard condition
-- of a downsweep pair whose right index is j + 2^d.

lemma left_mod_facts (d j : ℕ) (h : 2 ^ (d + 1) ∣ j + 2 ^ d + 1) :
    (j + 1) % 2 ^ (d + 1) = 2 ^ d ∧ j % 2 ^ (d + 1) = 2 ^ d - 1 ∧
      2 ^ d ∣ j + 1 := by
  obtain ⟨m, hm⟩ := h
  have hp : 0 < 2 ^ d := two_pow_pos d
  have hP1 : (2 : ℕ) ^ (d + 1) = 2 * 2 ^ d := by
    rw [pow_succ]; ring
  rcases m with _ | m
  · omega
  · have hmm : 2 ^ (d + 1) * (m + 1) = 2 ^ (d + 1) * m + 2 ^ (d + 1) := by ring
    have hj1 : j + 1 = 2 ^ (d + 1) * m + 2 ^ d := by omega
    have hj0 : j = 2 ^ (d + 1) * m + (2 ^ d - 1) := by omega
    refine ⟨?_, ?_, ?_⟩
    · rw [hj1, Nat.mul_add_mod]
      exact Nat.mod_eq_of_lt (by omega)
    · rw [hj0, Nat.mul_add_mod]
      exact Nat.mod_eq_of_lt (by omega)
    · refine ⟨2 * m + 1, ?_⟩
      rw [hj1, hP1]; ring

lemma right_le (d j : ℕ) (h : 2 ^ (d + 1) ∣ j + 1) : 2 ^ d ≤ j := by
  have := Nat.le_of_dvd (by omega) h
  have h2 : (2 : ℕ) ^ (d + 1) = 2 * 2 ^ d := by rw [pow_succ]; ring
  have := two_pow_pos d
  omega

lemma aCell_le (e j : ℕ) (h : 2 ^ e ≤ j % 2 ^ (e + 1)) : aCell e j + 1 ≤ j := by
  have h1 : j % 2 ^ (e + 1) ≤ j := Nat.mod_le _ _
  have h2 : 0 < 2 ^ e := two_pow_pos e
  unfold aCell
  omega

lemma aCell_isRight (d j : ℕ) (h : 2 ^ (d + 1) ∣ j + 1) :
    aCell d j = j - 2 ^ d := by
  have hmod := mod_eq_sub_one_of_dvd (2 ^ (d + 1)) j (two_pow_pos _) h
  have hle := right_le d j h
  have hP1 : (2 : ℕ) ^ (d + 1) = 2 * 2 ^ d := by rw [pow_succ]; ring
  have hp := two_pow_pos d
  have hjge : 2 ^ (d + 1) ≤ j + 1 := Nat.le_of_dvd (by omega) h
  unfold aCell
  omega

/-- A left-node cell j at level d and its pair partner j + 2^d occupy the
same position relative to every coarser level e: same block, shifted
remainder, and the same side of the block midpoint. -/
lemma shift_mod_facts (d e j : ℕ) (hde : d < e)
    (h : 2 ^ (d + 1) ∣ j + 2 ^ d + 1) :
    (j + 2 ^ d) % 2 ^ (e + 1) = j % 2 ^ (e + 1) + 2 ^ d ∧
      (j + 2 ^ d) - (j + 2 ^ d) % 2 ^ (e + 1) = j - j % 2 ^ (e + 1) ∧
      (2 ^ e ≤ j % 2 ^ (e + 1) ↔ 2 ^ e ≤ (j + 2 ^ d) % 2 ^ (e + 1)) := by
  obtain ⟨hj1, hj0, hdvd⟩ := left_mod_facts d j h
  have hp : 0 < 2 ^ d := two_pow_pos d
  have hq'pos : 0 < 2 ^ (e - d - 1) := two_pow_pos _
  have h2p : (2 : ℕ) ^ (d + 1) = 2 * 2 ^ d := by rw [pow_succ]; ring
  have hdvdE : (2 : ℕ) ^ (d + 1) ∣ 2 ^ (e + 1) := pow_dvd_pow 2 (by omega)
  have hE : (2 : ℕ) ^ (e + 1) = 2 * 2 ^ d * (2 * 2 ^ (e - d - 1)) := by
    have h1 : (2 : ℕ) ^ (e + 1) = 2 ^ (d + 1) * 2 ^ (e - d) := by
      rw [← pow_add]; congr 1; omega
    have h3 : e - d - 1 + 1 = e - d := by omega
    have h2 : (2 : ℕ) ^ (e - d) = 2 ^ (e - d - 1) * 2 := by
      conv_lhs => rw [← h3]
      rw [pow_succ]
    rw [h1, h2, h2p]; ring
  have hpe : (2 : ℕ) ^ e = 2 ^ d * (2 * 2 ^ (e - d - 1)) := by
    have h1 : (2 : ℕ) ^ e = 2 ^ d * 2 ^ (e - d) := by
      rw [← pow_add]; congr 1; omega
    have h3 : e - d - 1 + 1 = e - d := by omega
    have h2 : (2 : ℕ) ^ (e - d) = 2 ^ (e - d - 1) * 2 := by
      conv_lhs => rw [← h3]
      rw [pow_succ]
    rw [h1, h2]; ring
  set p := (2 : ℕ) ^ d with hpdef
  set q' := (2 : ℕ) ^ (e - d - 1) with hq'def
  set ρ := j % 2 ^ (e + 1) with hrho
  have hrm : ρ % (2 * p) = j % (2 * p) := by
    rw [hrho, ← h2p]; exact Nat.mod_mod_of_dvd j hdvdE
  have hjm2p : j % (2 * p) = p - 1 := by rw [← h2p]; exact hj0
  set w := ρ / (2 * p) with hwdef
  have hwm : 2 * p * w + (p - 1) = ρ := by
    have hx := Nat.div_add_mod ρ (2 * p)
    rw [hrm, hjm2p, ← hwdef] at hx
    omega
  have hrlt : ρ < 2 * p * (2 * q') := by
    rw [← hE, hrho]
    exact Nat.mod_lt _ (by positivity)
  have hwq : w < 2 * q' := by
    by_contra hcon
    have := Nat.mul_le_mul_left (2 * p) (show 2 * q' ≤ w by omega)
    omega
  have hsum : ρ + p < 2 ^ (e + 1) := by
    have h2 := Nat.mul_le_mul_left (2 * p) (show w + 1 ≤ 2 * q' by omega)
    have h3 : 2 * p * (w + 1) = 2 * p * w + 2 * p := by ring
    rw [hE]
    omega
  have hrhoj : ρ ≤ j := Nat.mod_le _ _
  have hA : (j + p) % 2 ^ (e + 1) = ρ + p := by
    have hdm := Nat.div_add_mod j (2 ^ (e + 1))
    have hj : j + p = 2 ^ (e + 1) * (j / 2 ^ (e + 1)) + (ρ + p) := by omega
    rw [hj, Nat.mul_add_mod]
    exact Nat.mod_eq_of_lt hsum
  refine ⟨hA, by rw [hA]; omega, ?_⟩
  constructor
  · intro hle
    omega
  · intro hle
    rw [hA] at hle
    rw [hpe] at hle ⊢
    by_contra hcon
    have hwlt : w < q' := by
      by_contra hw2
      have h1 := Nat.mul_le_mul_left p (show 2 * q' ≤ 2 * w by omega)
      have h2 : p * (2 * w) = 2 * p * w := by ring
      omega
    have h1 := Nat.mul_le_mul_left (2 * p) (show w + 1 ≤ q' by omega)
    have h2 : p * (2 * q') = 2 * p * q' := by ring
    have h3 : 2 * p * (w + 1) = 2 * p * w + 2 * p := by ring
    omega

-- Sums over cell ranges.

lemma segSum_consec (a b c : ℕ) (x : ℕ → ℤ) (h1 : a ≤ b) (h2 : b ≤ c) :
    segSum a b x + segSum b c x = segSum a c x :=
  Finset.sum_Ico_consecutive _ h1 h2

lemma segSum_single (j : ℕ) (x : ℕ → ℤ) : segSum j (j + 1) x = x j := by
  unfold segSum
  rw [Finset.sum_Ico_succ_top le_rfl, Finset.Ico_self, Finset.sum_empty, zero_add]

lemma segSum_succ_top (a b : ℕ) (x : ℕ → ℤ) (h : a ≤ b) :
    segSum a (b + 1) x = segSum a b x + x b :=
  Finset.sum_Ico_succ_top h x

lemma segSum_congr_below (a b : ℕ) (x y : ℕ → ℤ) (h : ∀ t, t < b → x t = y t) :
    segSum a b x = segSum a b y :=
  Finset.sum_congr rfl fun t ht => h t (Finset.mem_Ico.1 ht).2

lemma segSum_zero_len (a : ℕ) (x : ℕ → ℤ) : segSum a a x = 0 := by
  unfold segSum
  rw [Finset.Ico_self, Finset.sum_empty]

lemma errSum_top (D n j : ℕ) (x : ℕ → ℤ) : errSum D n D j x = 0 := by
  unfold errSum
  rw [Finset.Ico_self, Finset.sum_empty]

lemma errSum_split (D n d j : ℕ) (x : ℕ → ℤ) (h : d < D) :
    errSum D n d j x = errTerm n d j x + errSum D n (d + 1) j x :=
  Finset.sum_eq_sum_Ico_succ_bot h _

lemma errSum_vanish (D n d j : ℕ) (x : ℕ → ℤ) (h : j ≤ n) :
    errSum D n d j x = 0 := by
  unfold errSum
  apply Finset.sum_eq_zero
  intro e _
  unfold errTerm
  rw [if_neg]
  rintro ⟨h1, h2⟩
  have := aCell_le e j h1
  omega

lemma errSum_congr_below (D n d j : ℕ) (x y : ℕ → ℤ)
    (h : ∀ t, t ≤ j → x t = y t) : errSum D n d j x = errSum D n d j y := by
  unfold errSum
  apply Finset.sum_congr rfl
  intro e _
  unfold errTerm
  by_cases hc : 2 ^ e ≤ j % 2 ^ (e + 1) ∧ n < aCell e j
  · rw [if_pos hc, if_pos hc]
    have hle := aCell_le e j hc.1
    exact segSum_congr_below _ _ _ _ fun t ht => h t (by omega)
  · rw [if_neg hc, if_neg hc]

lemma errTerm_shift (n d e j : ℕ) (hde : d < e)
    (h : 2 ^ (d + 1) ∣ j + 2 ^ d + 1) (x : ℕ → ℤ) :
    errTerm n e (j + 2 ^ d) x = errTerm n e j x := by
  obtain ⟨hmod, hblock, hiff⟩ := shift_mod_facts d e j hde h
  have hac : aCell e (j + 2 ^ d) = aCell e j := by
    unfold aCell
    omega
  unfold errTerm
  rw [hac]
  have hcond : (2 ^ e ≤ (j + 2 ^ d) % 2 ^ (e + 1) ∧ n < aCell e j) ↔
      (2 ^ e ≤ j % 2 ^ (e + 1) ∧ n < aCell e j) := by
    constructor
    · rintro ⟨h1, h2⟩; exact ⟨hiff.2 h1, h2⟩
    · rintro ⟨h1, h2⟩; exact ⟨hiff.1 h1, h2⟩
  rw [if_congr hcond rfl rfl]

lemma errSum_shift (D n d j : ℕ) (h : 2 ^ (d + 1) ∣ j + 2 ^ d + 1)
    (x : ℕ → ℤ) : errSum D n (d + 1) (j + 2 ^ d) x = errSum D n (d + 1) j x := by
  unfold errSum
  apply Finset.sum_congr rfl
  intro e he
  have hde : d < e := by
    have := (Finset.mem_Ico.1 he).1
    omega
  exact errTerm_shift n d e j hde h x

lemma upsweepRun_eq (d n : ℕ) (x : ℕ → ℤ) : ∀ j,
    upsweepRun d n x j = uVal d n x j := by
  induction d with
  | zero =>
    intro j
    simp only [upsweepRun, uVal]
    by_cases hj : j ≤ n
    · rw [if_pos hj, pow_zero, Nat.gcd_one_left, Nat.add_sub_cancel,
        segSum_single]
    · rw [if_neg hj]
  | succ d ih =>
    intro j
    simp only [upsweepRun, kernUpsweep]
    by_cases hcond : (j + 1) % 2 ^ (d + 1) = 0 ∧ j ≤ n
    · obtain ⟨hm, hjn⟩ := hcond
      have hdvd : 2 ^ (d + 1) ∣ j + 1 := Nat.dvd_of_mod_eq_zero hm
      have hle : 2 ^ d ≤ j := right_le d j hdvd
      have h2p : (2 : ℕ) ^ (d + 1) = 2 * 2 ^ d := by rw [pow_succ]; ring
      have hjn2 : j - 2 ^ d ≤ n := le_trans (Nat.sub_le _ _) hjn
      rw [if_pos ⟨hm, hjn⟩, ih j, ih (j - 2 ^ d)]
      have hdl : 2 ^ d ∣ j + 1 - 2 ^ d :=
        Nat.dvd_sub' ((pow_dvd_pow 2 (Nat.le_succ d)).trans hdvd) dvd_rfl
      unfold uVal
      rw [if_pos hjn, if_pos hjn2, if_pos hjn]
      have hgcd1 : Nat.gcd (2 ^ d) (j + 1) = 2 ^ d :=
        Nat.gcd_eq_left ((pow_dvd_pow 2 (Nat.le_succ d)).trans hdvd)
      have hgcdt : Nat.gcd (2 ^ (d + 1)) (j + 1) = 2 ^ (d + 1) :=
        Nat.gcd_eq_left hdvd
      have he1 : j - 2 ^ d + 1 = j + 1 - 2 ^ d := by omega
      have hgcdl : Nat.gcd (2 ^ d) (j - 2 ^ d + 1) = 2 ^ d := by
        rw [he1]; exact Nat.gcd_eq_left hdl
      rw [hgcd1, hgcdt, hgcdl, he1]
      have he2 : j + 1 - 2 ^ d - 2 ^ d = j + 1 - 2 ^ (d + 1) := by omega
      rw [he2, add_comm]
      exact segSum_consec _ _ _ _ (by omega) (by omega)
    · rw [if_neg hcond, ih j]
      unfold uVal
      by_cases hj : j ≤ n
      · have hnd : ¬ 2 ^ (d + 1) ∣ j + 1 := by
          intro hdvd
          exact hcond ⟨Nat.mod_eq_zero_of_dvd hdvd, hj⟩
        rw [if_pos hj, if_pos hj, gcd_pow2_succ_of_not_dvd d (j + 1) hnd]
      · rw [if_neg hj, if_neg hj]

lemma kernDownsweep_inv (D n : ℕ) (x : ℕ → ℤ)
    (hpad : ∀ t, n ≤ t → t < 2 ^ D → x t = 0) (d : ℕ) (hd : d < D)
    (data : ℕ → ℤ) (h : DInv D n x (d + 1) data) :
    DInv D n x d (kernDownsweep d (2 ^ D) data) := by
  intro j hj
  have hp : 0 < 2 ^ d := two_pow_pos d
  have h2p : (2 : ℕ) ^ (d + 1) = 2 * 2 ^ d := by rw [pow_succ]; ring
  simp only [kernDownsweep]
  by_cases hR : (j + 1) % 2 ^ (d + 1) = 0 ∧ j ≤ 2 ^ D
  · rw [if_pos hR]
    obtain ⟨hm, hjD⟩ := hR
    have hdvd : 2 ^ (d + 1) ∣ j + 1 := Nat.dvd_of_mod_eq_zero hm
    have hle2 : 2 ^ (d + 1) ≤ j + 1 := Nat.le_of_dvd (by omega) hdvd
    constructor
    · intro _
      have hdj := (h j hj).1 hm
      have hlm : (j - 2 ^ d + 1) % 2 ^ (d + 1) ≠ 0 := by
        intro hc
        have hdvd2 : 2 ^ (d + 1) ∣ j - 2 ^ d + 1 := Nat.dvd_of_mod_eq_zero hc
        have he1 : j - 2 ^ d + 1 = j + 1 - 2 ^ d := by omega
        rw [he1] at hdvd2
        have hsub : 2 ^ (d + 1) ∣ 2 ^ d := by
          have hs := Nat.dvd_sub' hdvd hdvd2
          have he2 : j + 1 - (j + 1 - 2 ^ d) = 2 ^ d := by omega
          rwa [he2] at hs
        have := Nat.le_of_dvd hp hsub
        omega
      have hlj : j - 2 ^ d < 2 ^ D := by omega
      have hdl := (h (j - 2 ^ d) hlj).2 hlm
      rw [hdj, hdl]
      have hdvdl : 2 ^ d ∣ j - 2 ^ d + 1 := by
        have he1 : j - 2 ^ d + 1 = j + 1 - 2 ^ d := by omega
        rw [he1]
        exact Nat.dvd_sub' ((pow_dvd_pow 2 (Nat.le_succ d)).trans hdvd) dvd_rfl
      have hndvdl : ¬ 2 ^ (d + 1) ∣ j - 2 ^ d + 1 := fun hc =>
        hlm (Nat.mod_eq_zero_of_dvd hc)
      have hgcdl : Nat.gcd (2 ^ D) (j - 2 ^ d + 1) = 2 ^ d :=
        gcd_pow2_of_dvd d D _ hdvdl hndvdl (by omega)
      rw [errSum_split D n d j x hd]
      have hterm : errTerm n d j x =
          if n < j - 2 ^ d then
            segSum (j - 2 ^ d + 1 - 2 ^ d) (j - 2 ^ d + 1) x
          else 0 := by
        unfold errTerm
        have hjm := mod_eq_sub_one_of_dvd (2 ^ (d + 1)) j (two_pow_pos _) hdvd
        have hc1 : 2 ^ d ≤ j % 2 ^ (d + 1) := by omega
        have hac := aCell_isRight d j hdvd
        rw [hac]
        by_cases hnl : n < j - 2 ^ d
        · rw [if_pos ⟨hc1, hnl⟩, if_pos hnl]
        · rw [if_neg (by tauto), if_neg hnl]
      unfold uVal
      by_cases hln : j - 2 ^ d ≤ n
      · rw [if_pos hln, hgcdl, hterm, if_neg (by omega)]
        have hk1 : j - 2 ^ d + 1 - 2 ^ d = j + 1 - 2 ^ (d + 1) := by omega
        have hk2 : j - 2 ^ d + 1 = j + 1 - 2 ^ d := by omega
        rw [hk1, hk2]
        have hcs := segSum_consec 0 (j + 1 - 2 ^ (d + 1)) (j + 1 - 2 ^ d) x
          (by omega) (by omega)
        linarith [hcs]
      · rw [if_neg hln, hterm, if_pos (by omega)]
        have hx0 : x (j - 2 ^ d) = 0 := hpad _ (by omega) hlj
        rw [hx0]
        have hk1 : j - 2 ^ d + 1 - 2 ^ d = j + 1 - 2 ^ (d + 1) := by omega
        have hk2 : j - 2 ^ d + 1 = j + 1 - 2 ^ d := by omega
        rw [hk1, hk2]
        have hcs := segSum_consec 0 (j + 1 - 2 ^ (d + 1)) (j + 1 - 2 ^ d) x
          (by omega) (by omega)
        linarith [hcs]
    · intro hne
      exact absurd
        (Nat.mod_eq_zero_of_dvd ((pow_dvd_pow 2 (Nat.le_succ d)).trans hdvd))
        hne
  · rw [if_neg hR]
    by_cases hL : (j + 2 ^ d + 1) % 2 ^ (d + 1) = 0 ∧ j + 2 ^ d ≤ 2 ^ D
    · rw [if_pos hL]
      obtain ⟨hm, hrD⟩ := hL
      have hdvd : 2 ^ (d + 1) ∣ j + 2 ^ d + 1 := Nat.dvd_of_mod_eq_zero hm
      obtain ⟨hj1, hj0, hdvdp⟩ := left_mod_facts d j hdvd
      constructor
      · intro _
        have hrlt : j + 2 ^ d < 2 ^ D := by
          rcases Nat.lt_or_ge (j + 2 ^ d) (2 ^ D) with hlt | hge
          · exact hlt
          · exfalso
            have heq : j + 2 ^ d = 2 ^ D := by omega
            have hdvdD : 2 ^ (d + 1) ∣ 2 ^ D := pow_dvd_pow 2 (by omega)
            have hone : 2 ^ (d + 1) ∣ 1 := by
              have hs := Nat.dvd_sub' (heq ▸ hdvd) hdvdD
              rwa [Nat.add_sub_cancel_left] at hs
            have := Nat.le_of_dvd one_pos hone
            omega
        have hdr := (h (j + 2 ^ d) hrlt).1 hm
        rw [hdr]
        have hple : 2 ^ d ≤ j + 1 := Nat.le_of_dvd (by omega) hdvdp
        have hk : j + 2 ^ d + 1 - 2 ^ (d + 1) = j + 1 - 2 ^ d := by omega
        rw [hk, errSum_split D n d j x hd]
        have hterm0 : errTerm n d j x = 0 := by
          unfold errTerm
          rw [if_neg]
          rintro ⟨hc1, _⟩
          omega
        rw [hterm0, errSum_shift D n d j hdvd x]
        ring
      · intro hne
        exact absurd (Nat.mod_eq_zero_of_dvd hdvdp) hne
    · rw [if_neg hL]
      constructor
      · intro hdm
        exfalso
        have hdvdp : 2 ^ d ∣ j + 1 := Nat.dvd_of_mod_eq_zero hdm
        obtain ⟨m, hm⟩ := hdvdp
        rcases Nat.even_or_odd m with ⟨k, hk⟩ | ⟨k, hk⟩
        · apply hR
          refine ⟨Nat.mod_eq_zero_of_dvd ⟨k, ?_⟩, by omega⟩
          rw [hm, hk, h2p]; ring
        · have heqL : j + 2 ^ d + 1 = 2 ^ (d + 1) * (k + 1) := by
            have hj1 : j + 1 = 2 ^ d * (2 * k + 1) := by rw [hm, hk]
            have hx : 2 ^ d * (2 * k + 1) + 2 ^ d = 2 ^ (d + 1) * (k + 1) := by
              rw [h2p]; ring
            omega
          have hLm : (j + 2 ^ d + 1) % 2 ^ (d + 1) = 0 :=
            Nat.mod_eq_zero_of_dvd ⟨k + 1, heqL⟩
          have hbound : ¬ j + 2 ^ d ≤ 2 ^ D := fun hb => hL ⟨hLm, hb⟩
          have hDsplit : (2 : ℕ) ^ D = 2 ^ (d + 1) * 2 ^ (D - d - 1) := by
            rw [← pow_add]; congr 1; omega
          have hQpos : 0 < 2 ^ (D - d - 1) := two_pow_pos _
          have hkQ : 2 ^ (D - d - 1) < k + 1 := by
            by_contra hc
            have hmul := Nat.mul_le_mul_left (2 ^ (d + 1))
              (show k + 1 ≤ 2 ^ (D - d - 1) by omega)
            rw [← hDsplit] at hmul
            omega
          have hmul2 := Nat.mul_le_mul_left (2 ^ (d + 1))
            (show 2 ^ (D - d - 1) + 1 ≤ k + 1 by omega)
          have hmul3 : 2 ^ (d + 1) * (2 ^ (D - d - 1) + 1) =
              2 ^ D + 2 ^ (d + 1) := by
            rw [hDsplit]; ring
          omega
      · intro hne
        refine (h j hj).2 ?_
        intro hc
        exact hne (Nat.mod_eq_zero_of_dvd
          ((pow_dvd_pow 2 (Nat.le_succ d)).trans (Nat.dvd_of_mod_eq_zero hc)))

lemma downsweepRun_inv (D n : ℕ) (x : ℕ → ℤ)
    (hpad : ∀ t, n ≤ t → t < 2 ^ D → x t = 0) :
    ∀ d, d ≤ D → ∀ data, DInv D n x d data →
      DInv D n x 0 (downsweepRun d (2 ^ D) data) := by
  intro d
  induction d with
  | zero =>
    intro _ data hinv
    simpa [downsweepRun] using hinv
  | succ d ih =>
    intro hdD data hinv
    simp only [downsweepRun]
    exact ih (by omega) _ (kernDownsweep_inv D n x hpad d (by omega) data hinv)

lemma scanDev_base (D n : ℕ) (x : ℕ → ℤ) :
    DInv D n x D (setCell (2 ^ D - 1) 0 (upsweepRun D n x)) := by
  intro j hj
  have hP : 0 < 2 ^ D := two_pow_pos D
  constructor
  · intro hm
    have hdvd : 2 ^ D ∣ j + 1 := Nat.dvd_of_mod_eq_zero hm
    have hje : j + 1 = 2 ^ D :=
      le_antisymm (by omega) (Nat.le_of_dvd (by omega) hdvd)
    have hjeq : j = 2 ^ D - 1 := by omega
    simp only [setCell]
    rw [if_pos hjeq, show j + 1 - 2 ^ D = 0 by omega, segSum_zero_len,
      errSum_top]
    ring
  · intro hne
    have hjne : j ≠ 2 ^ D - 1 := by
      intro hc
      apply hne
      rw [hc, show 2 ^ D - 1 + 1 = 2 ^ D by omega]
      exact Nat.mod_self _
    simp only [setCell]
    rw [if_neg hjne]
    exact upsweepRun_eq D n x j

/-- Closed form of a cell after the complete device phase: the sum of all
cells strictly before it, minus the contributions the n-bounded upsweep
guard failed to collect on its root path. -/
lemma scanDev_formula (D n : ℕ) (x : ℕ → ℤ)
    (hpad : ∀ t, n ≤ t → t < 2 ^ D → x t = 0) (j : ℕ) (hj : j < 2 ^ D) :
    scanDev D n x j = segSum 0 j x - errSum D n 0 j x := by
  have hinv := downsweepRun_inv D n x hpad D le_rfl _ (scanDev_base D n x)
  have h1 := (hinv j hj).1 (by rw [pow_zero]; exact Nat.mod_one _)
  rw [pow_zero, Nat.add_sub_cancel] at h1
  simpa [scanDev] using h1

/-- Cells up to the logical size carry no error term: there the device phase
computes the exact exclusive sums. -/
lemma scanDev_correct (D n : ℕ) (x : ℕ → ℤ)
    (hpad : ∀ t, n ≤ t → t < 2 ^ D → x t = 0) (j : ℕ) (hjn : j ≤ n)
    (hj : j < 2 ^ D) : scanDev D n x j = segSum 0 j x := by
  rw [scanDev_formula D n x hpad j hj, errSum_vanish D n 0 j x hjn, sub_zero]

-- Bridging the device-phase facts to the two entry points.

lemma pow_ilog2ceil_potOf (n : ℕ) : 2 ^ ilog2ceil (potOf n) = potOf n := by
  rw [ilog2ceil_potOf]; rfl

lemma mapRange_congr (n : ℕ) (f g : ℕ → ℤ) (h : ∀ i, i < n → f i = g i) :
    (List.range n).map f = (List.range n).map g := by
  induction n with
  | zero => rfl
  | succ n ih =>
    rw [List.range_succ, List.map_append, List.map_append,
      ih fun i hi => h i (by omega)]
    simp [h n (by omega)]

lemma scanBuf_eval (n : ℕ) (x g : ℕ → ℤ) (t : ℕ) (ht : t < potOf n) :
    memsetZero n (potOf n) (copyFirst n x g) t = if t < n then x t else 0 := by
  simp only [memsetZero, copyFirst]
  by_cases h1 : t < n
  · rw [if_neg (by omega), if_pos h1, if_pos h1]
  · rw [if_pos ⟨by omega, ht⟩, if_neg h1]

lemma scanBuf_pad (n : ℕ) (x g : ℕ → ℤ) : ∀ t, n ≤ t →
    t < 2 ^ ilog2ceil (potOf n) →
    memsetZero n (potOf n) (copyFirst n x g) t = 0 := by
  intro t h1 h2
  rw [pow_ilog2ceil_potOf] at h2
  rw [scanBuf_eval n x g t h2, if_neg (by omega)]

/-- The scan entry point returns exactly the exclusive sums of the first n
inputs, for every content of the uninitialized allocation. -/
lemma scanFull_eq (n : ℕ) (x g : ℕ → ℤ) :
    scanFull n x g = (List.range n).map fun i => segSum 0 i x := by
  unfold scanFull
  apply mapRange_congr
  intro i hi
  have hD := n_le_pow_ilog2ceil_potOf n
  rw [scanDev_correct _ _ _ (scanBuf_pad n x g) i (by omega) (by omega)]
  refine segSum_congr_below 0 i _ x fun t ht => ?_
  have hP := le_potOf n
  rw [scanBuf_eval n x g t (by omega), if_pos (by omega)]

lemma compactBuf_eval (n : ℕ) (x gI gB gI2 : ℕ → ℤ) (t : ℕ)
    (ht : t < potOf n) :
    memsetZero n (potOf n)
        (copyFirst (potOf n)
          (kernMapToBoolean (potOf n) (copyFirst n x gI) gB) gI2) t =
      if t < n then maskOf x t else 0 := by
  simp only [memsetZero, copyFirst, kernMapToBoolean, maskOf]
  by_cases h1 : t < n
  · rw [if_neg (show ¬ (n ≤ t ∧ t < potOf n) by omega), if_pos ht, if_pos ht]
    simp [h1]
  · rw [if_pos ⟨by omega, ht⟩, if_neg h1]

lemma compactBuf_pad (n : ℕ) (x gI gB gI2 : ℕ → ℤ) : ∀ t, n ≤ t →
    t < 2 ^ ilog2ceil (potOf n) →
    memsetZero n (potOf n)
      (copyFirst (potOf n)
        (kernMapToBoolean (potOf n) (copyFirst n x gI) gB) gI2) t = 0 := by
  intro t h1 h2
  rw [pow_ilog2ceil_potOf] at h2
  rw [compactBuf_eval n x gI gB gI2 t h2, if_neg (by omega)]

/-- Inside the logical range, the index array compact scatters with holds the
exclusive sums of the 0/1 mask of the input, whatever the three allocations
contained. -/
lemma compactIdx_eq (n : ℕ) (x gI gB gI2 : ℕ → ℤ) (i : ℕ) (hi : i < n) :
    compactIdx n x gI gB gI2 i = segSum 0 i (maskOf x) := by
  unfold compactIdx
  have hD := n_le_pow_ilog2ceil_potOf n
  rw [scanDev_correct _ _ _ (compactBuf_pad n x gI gB gI2) i (by omega)
    (by omega)]
  refine segSum_congr_below 0 i _ _ fun t ht => ?_
  have hP := le_potOf n
  rw [compactBuf_eval n x gI gB gI2 t (by omega), if_pos (by omega)]

/-- The count compact returns is a function of n and the input alone: the
cell it is copied from is computed from a buffer whose cells below the
padded size are fully initialized. -/
lemma compactCount_indep (n : ℕ) (x gI gB gI2 gO gI2nd gB2nd gI22nd gO2nd : ℕ → ℤ) :
    (compactModel n x gI gB gI2 gO).2 =
      (compactModel n x gI2nd gB2nd gI22nd gO2nd).2 := by
  simp only [compactModel]
  unfold compactIdx
  have hPpos : 0 < potOf n := by unfold potOf; exact two_pow_pos _
  have hjP : potOf n - 1 < 2 ^ ilog2ceil (potOf n) := by
    rw [pow_ilog2ceil_potOf]; omega
  rw [scanDev_formula _ _ _ (compactBuf_pad n x gI gB gI2) _ hjP,
    scanDev_formula _ _ _ (compactBuf_pad n x gI2nd gB2nd gI22nd) _ hjP]
  have hagree : ∀ t, t < potOf n →
      memsetZero n (potOf n)
          (copyFirst (potOf n)
            (kernMapToBoolean (potOf n) (copyFirst n x gI) gB) gI2) t =
        memsetZero n (potOf n)
          (copyFirst (potOf n)
            (kernMapToBoolean (potOf n) (copyFirst n x gI2nd) gB2nd) gI22nd) t := by
    intro t ht
    rw [compactBuf_eval n x gI gB gI2 t ht,
      compactBuf_eval n x gI2nd gB2nd gI22nd t ht]
  rw [segSum_congr_below 0 (potOf n - 1) _ _ fun t ht => hagree t (by omega),
    errSum_congr_below _ _ _ _ _ _ fun t ht => hagree t (by omega)]

-- Claim theorems.

/-- C1: for every non-negative size n, every input x (and every content g of
the uninitialized allocation), entry i of the scan result equals the sum of
the inputs at positions before i, with the empty sum equal to 0 — even
though the upsweep guard compares indices against the logical size n while
the downsweep guard compares against the padded size. -/
theorem scan_is_exclusive_sums (n : ℕ) (x g : ℕ → ℤ) :
    scanFull n x g = (List.range n).map fun i => segSum 0 i x :=
  scanFull_eq n x g

/-- C2: fails on the code.  compact copies its count from cell P-1 of the
index array alone (efficient.cu line 122) and never adds the pre-scan mask
value: on the input 3, 4 (n = 2, a power of two) it returns 1 although the
input has two nonzero entries. -/
theorem compact_count_drops_last_kept :
    (compactModel 2 samplePair zeroGarbage zeroGarbage zeroGarbage
        zeroGarbage).2 = 1 ∧
      nonzeroCount 2 samplePair = 2 :=
  ⟨by decide, by decide⟩

/-- C3: among kept logical positions (nonzero inputs at indices below n),
the scatter destination indices compact computes are strictly increasing,
and the exclusive mask sum grows by exactly one just past a kept position. -/
theorem compact_destinations_strictly_increase (n : ℕ) (x gI gB gI2 : ℕ → ℤ)
    (i j : ℕ) (hij : i < j) (hjn : j < n) (hxi : x i ≠ 0) (hxj : x j ≠ 0) :
    compactIdx n x gI gB gI2 i < compactIdx n x gI gB gI2 j ∧
      compactIdx n x gI gB gI2 (i + 1) = compactIdx n x gI gB gI2 i + 1 := by
  have hi : i < n := by omega
  have hi1 : i + 1 < n := by omega
  rw [compactIdx_eq n x gI gB gI2 i hi, compactIdx_eq n x gI gB gI2 j hjn,
    compactIdx_eq n x gI gB gI2 (i + 1) hi1]
  have hmi : maskOf x i = 1 := by unfold maskOf; rw [if_neg hxi]
  constructor
  · have hsplit := segSum_consec 0 i j (maskOf x) (Nat.zero_le i) (by omega)
    have hone : (1 : ℤ) ≤ segSum i j (maskOf x) := by
      have hmem : i ∈ Finset.Ico i j := Finset.mem_Ico.2 ⟨le_rfl, hij⟩
      have hnn : ∀ t ∈ Finset.Ico i j, (0 : ℤ) ≤ maskOf x t := by
        intro t _
        unfold maskOf
        by_cases hx : x t = 0
        · rw [if_pos hx]
        · rw [if_neg hx]; norm_num
      have hs := Finset.single_le_sum hnn hmem
      rw [hmi] at hs
      unfold segSum
      exact hs
    linarith
  · rw [segSum_succ_top 0 i (maskOf x) (Nat.zero_le i), hmi]

theorem compact_destinations_strictly_increase_witness :
    0 < 2 ∧ 2 < 5 ∧ sampleMixed 0 ≠ 0 ∧ sampleMixed 2 ≠ 0 ∧
      (compactIdx 5 sampleMixed zeroGarbage zeroGarbage zeroGarbage 0 <
          compactIdx 5 sampleMixed zeroGarbage zeroGarbage zeroGarbage 2 ∧
        compactIdx 5 sampleMixed zeroGarbage zeroGarbage zeroGarbage (0 + 1) =
          compactIdx 5 sampleMixed zeroGarbage zeroGarbage zeroGarbage 0 + 1) :=
  ⟨by decide, by decide, by decide, by decide,
    compact_destinations_strictly_increase 5 sampleMixed zeroGarbage
      zeroGarbage zeroGarbage 0 2 (by decide) (by decide) (by decide)
      (by decide)⟩

/-- C4: partially fails on the code.  On the singleton input 5, scan returns
the list holding 0 and the compact output buffer holds 5 as the claim says,
but the returned count is 0, not 1, because the pre-scan mask value at the
last cell is never added. -/
theorem singleton_scenario_eval :
    scanFull 1 sampleFive zeroGarbage = [0] ∧
      (compactModel 1 sampleFive zeroGarbage zeroGarbage zeroGarbage
          zeroGarbage).1 = [5] ∧
      (compactModel 1 sampleFive zeroGarbage zeroGarbage zeroGarbage
          zeroGarbage).2 = 0 ∧
      nonzeroCount 1 sampleFive = 1 :=
  ⟨by decide, by decide, by decide, by decide⟩

/-- C5: the empty request is trivial: scan returns the empty list, and
compact returns the empty list with count 0, whatever the uninitialized
allocations contain (the padded size is still one cell, and the count cell
is zeroed by the memset over the range n..P and the root zeroing). -/
theorem empty_input_trivial (x g gI gB gI2 gO : ℕ → ℤ) :
    scanFull 0 x g = [] ∧ compactModel 0 x gI gB gI2 gO = ([], 0) :=
  ⟨rfl, rfl⟩

/-- C6: for every positive n the first scan output is 0, and entry 0 of the
working buffer equals the identity seed 0 after the downsweep phase. -/
theorem scan_first_output_zero (n : ℕ) (x g : ℕ → ℤ) (h : 0 < n) :
    (scanFull n x g).getD 0 0 = 0 ∧
      scanDev (ilog2ceil (potOf n)) n
        (memsetZero n (potOf n) (copyFirst n x g)) 0 = 0 := by
  constructor
  · rw [scanFull_eq]
    obtain ⟨m, rfl⟩ : ∃ m, n = m + 1 := ⟨n - 1, by omega⟩
    rw [List.range_succ_eq_map]
    simp [segSum_zero_len]
  · have hpos : 0 < 2 ^ ilog2ceil (potOf n) := two_pow_pos _
    rw [scanDev_correct _ _ _ (scanBuf_pad n x g) 0 (Nat.zero_le n) hpos,
      segSum_zero_len]

theorem scan_first_output_zero_witness :
    0 < 1 ∧ ((scanFull 1 sampleFive zeroGarbage).getD 0 0 = 0 ∧
      scanDev (ilog2ceil (potOf 1)) 1
        (memsetZero 1 (potOf 1) (copyFirst 1 sampleFive zeroGarbage)) 0 = 0) :=
  ⟨by decide, scan_first_output_zero 1 sampleFive zeroGarbage (by decide)⟩

/-- C7: padding invariance.  Whatever power-of-two padded size 2^D at or
above n the device phase runs with, the first n outputs over the
zero-extended input are the same, and they agree with what the entry point
(which picks the smallest such size) returns. -/
theorem scan_padding_invariant (n D1 D2 : ℕ) (x g : ℕ → ℤ)
    (h1 : n ≤ 2 ^ D1) (h2 : n ≤ 2 ^ D2) :
    (List.range n).map (scanDev D1 n (zeroPad n x)) =
        (List.range n).map (scanDev D2 n (zeroPad n x)) ∧
      scanFull n x g = (List.range n).map (scanDev D1 n (zeroPad n x)) := by
  have hmap : ∀ D, n ≤ 2 ^ D →
      (List.range n).map (scanDev D n (zeroPad n x)) =
        (List.range n).map fun i => segSum 0 i x := by
    intro D hD
    apply mapRange_congr
    intro i hi
    have hpad : ∀ t, n ≤ t → t < 2 ^ D → zeroPad n x t = 0 := by
      intro t ht _
      unfold zeroPad
      rw [if_neg (by omega)]
    rw [scanDev_correct D n _ hpad i (by omega) (by omega)]
    refine segSum_congr_below 0 i _ x fun t ht => ?_
    unfold zeroPad
    rw [if_pos (by omega)]
  rw [hmap D1 h1, hmap D2 h2, scanFull_eq]
  exact ⟨rfl, rfl⟩

theorem scan_padding_invariant_witness :
    (3 : ℕ) ≤ 2 ^ 2 ∧ (3 : ℕ) ≤ 2 ^ 5 ∧
      ((List.range 3).map (scanDev 2 3 (zeroPad 3 sampleAllNonzero)) =
          (List.range 3).map (scanDev 5 3 (zeroPad 3 sampleAllNonzero)) ∧
        scanFull 3 sampleAllNonzero zeroGarbage =
          (List.range 3).map (scanDev 2 3 (zeroPad 3 sampleAllNonzero))) :=
  ⟨by decide, by decide,
    scan_padding_invariant 3 2 5 sampleAllNonzero zeroGarbage (by decide)
      (by decide)⟩

/-- C8 counterexample: at the negative size -1 both entry points perform an
allocation as their first operation and contain no rejection step at all,
so the request is not rejected before any work begins. -/
theorem neg_size_still_allocates :
    HostStep.allocBuf ∈ scanHostSteps (-1) ∧
      HostStep.reject ∉ scanHostSteps (-1) ∧
      HostStep.allocBuf ∈ compactHostSteps (-1) ∧
      HostStep.reject ∉ compactHostSteps (-1) :=
  ⟨by decide, by decide, by decide, by decide⟩

/-- C8 amended: negative sizes are not validated: for every n, scan and
compact begin unconditionally with a device allocation, and no rejection
step exists anywhere on their host paths. -/
theorem entry_points_never_reject (n : ℤ) :
    (scanHostSteps n).head? = some HostStep.allocBuf ∧
      HostStep.reject ∉ scanHostSteps n ∧
      (compactHostSteps n).head? = some HostStep.allocBuf ∧
      HostStep.reject ∉ compactHostSteps n :=
  ⟨rfl, by simp [scanHostSteps], rfl, by simp [compactHostSteps]⟩

/-- C9: fails on the code.  On the all-nonzero input 1, 2, 3, 4 the output
buffer does return the input unchanged, but the returned count is 3, not
n = 4: the exclusive-scan cell P-1 misses the last kept element. -/
theorem allnonzero_compact_eval :
    (∀ i, i < 4 → sampleAllNonzero i ≠ 0) ∧
      (compactModel 4 sampleAllNonzero zeroGarbage zeroGarbage zeroGarbage
          zeroGarbage).1 = [1, 2, 3, 4] ∧
      (compactModel 4 sampleAllNonzero zeroGarbage zeroGarbage zeroGarbage
          zeroGarbage).2 = 3 :=
  ⟨by decide, by decide, by decide⟩

/-- C10 counterexample: the n-cell output array compact hands back is not a
function of n and the input alone: on the input 5, 0 the cell past the kept
element is copied straight from the uninitialized output allocation, so two
invocations differing only in that allocation return different arrays. -/
theorem compact_output_reads_uninitialized :
    (compactModel 2 sampleWithZero zeroGarbage zeroGarbage zeroGarbage
        zeroGarbage).1 ≠
      (compactModel 2 sampleWithZero zeroGarbage zeroGarbage zeroGarbage
        sevenGarbage).1 := by
  decide

/-- C10 amended: the scan output and the count compact returns are
deterministic — functions of n and the input sequence only, unchanged
across invocations whatever the four uninitialized allocations contain; the
input array is only ever read. -/
theorem scan_and_count_deterministic (n : ℕ)
    (x gA gB2 gI gB gI2 gO gIb gBb gI2b gOb : ℕ → ℤ) :
    scanFull n x gA = scanFull n x gB2 ∧
      (compactModel n x gI gB gI2 gO).2 =
        (compactModel n x gIb gBb gI2b gOb).2 :=
  ⟨by rw [scanFull_eq, scanFull_eq],
    compactCount_indep n x gI gB gI2 gO gIb gBb gI2b gOb⟩
